import Mathlib

/-!
Verification of the influx CLI core (cmd/influx/cli/cli.go): the identifier
parser used by the INSERT pre-processor and the response formatter.
Go strings are modelled as Lean strings; the byte-level indexing done by the
Go code coincides with character indexing on the ASCII inputs it is applied
to.  Go maps (the series tags) are modelled as association lists carrying one
iteration order; theorems quantify over that order where the code depends
on it.
-/

namespace InfluxCLI

/-! ### Character classes (cli.go lines 374-387) -/

/-- isWhitespace returns true if the rune is a space, tab, or newline. -/
def isWhitespace (ch : Char) : Bool := ch == ' ' || ch == '\t' || ch == '\n'

/-- isLetter returns true if the rune is a letter. -/
def isLetter (ch : Char) : Bool := ('a' ≤ ch && ch ≤ 'z') || ('A' ≤ ch && ch ≤ 'Z')

/-- isDigit returns true if the rune is a digit. -/
def isDigit (ch : Char) : Bool := '0' ≤ ch && ch ≤ '9'

/-- isIdentFirstChar returns true if the rune can start an unquoted identifier. -/
def isIdentFirstChar (ch : Char) : Bool := isLetter ch || ch == '_'

/-- isNotIdentChar returns true if the rune cannot be used in an unquoted identifier. -/
def isNotIdentChar (ch : Char) : Bool := !(isLetter ch || isDigit ch || ch == '_')

/-! ### strings.FieldsFunc and strings.TrimPrefix

The Go code calls strings.FieldsFunc twice: once with the pure predicate
isNotIdentChar and once with a stateful closure threading an escapeNext
flag.  Both are modelled as left-to-right scans that accumulate the current
field in reverse, exactly as the Go implementation visits the runes in
order; empty fields are dropped. -/

/-- Embeds strings.FieldsFunc with a pure splitting predicate: maximal runs
of characters on which the predicate is false, empty runs dropped. -/
def fieldsFuncCore (p : Char → Bool) : List Char → List Char → List (List Char)
  | [], cur => if cur = [] then [] else [cur.reverse]
  | c :: cs, cur =>
    if p c then
      if cur = [] then fieldsFuncCore p cs []
      else cur.reverse :: fieldsFuncCore p cs []
    else fieldsFuncCore p cs (c :: cur)

/-- Embeds the stateful strings.FieldsFunc closure of
parseDoubleQuotedIdentifier (cli.go lines 397-408): a backslash sets the
escapeNext flag, an unescaped double quote splits, a double quote seen with
the flag set clears the flag and does not split, and every other character
leaves the flag unchanged. -/
def dqFieldsCore : List Char → Bool → List Char → List (List Char)
  | [], _, cur => if cur = [] then [] else [cur.reverse]
  | c :: cs, esc, cur =>
    if c = '\\' then dqFieldsCore cs true (c :: cur)
    else if c = '"' then
      if esc then dqFieldsCore cs false (c :: cur)
      else
        if cur = [] then dqFieldsCore cs false []
        else cur.reverse :: dqFieldsCore cs false []
    else dqFieldsCore cs esc (c :: cur)

/-- Embeds strings.TrimPrefix on character lists. -/
def trimPrefixL (s pre : List Char) : List Char :=
  if pre.isPrefixOf s then s.drop pre.length else s

/-- Embeds strings.HasPrefix. -/
def startsWith (s pre : String) : Bool := pre.toList.isPrefixOf s.toList

/-- Embeds the Go slice s[n:] for ASCII strings. -/
def strDrop (s : String) (n : Nat) : String := ⟨s.toList.drop n⟩

/-! ### The identifier parser (cli.go lines 389-427) -/

/-- Embeds parseUnquotedIdentifier (cli.go lines 389-394) on character lists. -/
def parseUnquotedIdentifierL (stmt : List Char) : List Char × List Char :=
  match fieldsFuncCore isNotIdentChar stmt [] with
  | f :: _ => (f, trimPrefixL stmt f)
  | [] => ([], stmt)

/-- Embeds parseDoubleQuotedIdentifier (cli.go lines 396-413) on character
lists: the head field of the stateful split, with the remainder obtained by
stripping the prefix quote-field-quote when it is a prefix. -/
def parseDoubleQuotedIdentifierL (stmt : List Char) : List Char × List Char :=
  match dqFieldsCore stmt false [] with
  | f :: _ => (f, trimPrefixL stmt ('"' :: f ++ ['"']))
  | [] => ([], stmt)

/-- Embeds parseNextIdentifier (cli.go lines 415-427) on character lists:
skip leading whitespace recursively, then dispatch on the first character. -/
def parseNextIdentifierL : List Char → List Char × List Char
  | [] => ([], [])
  | c :: cs =>
    if isWhitespace c then parseNextIdentifierL cs
    else if isIdentFirstChar c then parseUnquotedIdentifierL (c :: cs)
    else if c = '"' then parseDoubleQuotedIdentifierL (c :: cs)
    else ([], c :: cs)

/-- Embeds parseUnquotedIdentifier at the String level. -/
def parseUnquotedIdentifier (stmt : String) : String × String :=
  let p := parseUnquotedIdentifierL stmt.toList
  (⟨p.1⟩, ⟨p.2⟩)

/-- Embeds parseDoubleQuotedIdentifier at the String level. -/
def parseDoubleQuotedIdentifier (stmt : String) : String × String :=
  let p := parseDoubleQuotedIdentifierL stmt.toList
  (⟨p.1⟩, ⟨p.2⟩)

/-- Embeds parseNextIdentifier at the String level. -/
def parseNextIdentifier (stmt : String) : String × String :=
  let p := parseNextIdentifierL stmt.toList
  (⟨p.1⟩, ⟨p.2⟩)

/-! ### parseInto (cli.go lines 429-442) -/

/-- The mutable CLI fields read and written by parseInto. -/
structure CLIState where
  database : String
  retentionPolicy : String
deriving DecidableEq

/-- Embeds parseInto (cli.go lines 429-442): parse an identifier; if the
remainder starts with a dot the identifier becomes the database and a second
identifier is parsed after the dot; if the remainder then starts with a
space the pending identifier becomes the retention policy and the space is
consumed. -/
def parseInto (c : CLIState) (stmt : String) : CLIState × String :=
  let p := parseNextIdentifier stmt
  if startsWith p.2 "." then
    let c1 : CLIState := { c with database := p.1 }
    let q := parseNextIdentifier (strDrop p.2 1)
    if startsWith q.2 " " then ({ c1 with retentionPolicy := q.1 }, strDrop q.2 1)
    else (c1, q.2)
  else
    if startsWith p.2 " " then ({ c with retentionPolicy := p.1 }, strDrop p.2 1)
    else (c, p.2)

/-! ### The data model of a query response (client library structs) -/

/-- A row value: the scalar kinds distinguished by interfaceToString.  The
float case carries its strconv rendering opaquely, since Go float formatting
is done by the out-of-scope standard library. -/
inductive Scalar where
  | null
  | bool (b : Bool)
  | int (i : Int)
  | float (rendered : String)
  | str (s : String)

/-- Embeds interfaceToString (cli.go lines 652-665): nil renders as the
empty string, bool via the fmt verb v as true or false, the integer kinds
via the fmt verb d as plain decimal, floats and everything else via the fmt
verb v. -/
def interfaceToString : Scalar → String
  | .null => ""
  | .bool b => if b then "true" else "false"
  | .int i => i.repr
  | .float rendered => rendered
  | .str s => s

/-- One series of a Result: name, tag map (as an iteration-ordered
association list), column names, and value rows. -/
structure Series where
  name : String
  tags : List (String × String)
  columns : List String
  values : List (List Scalar)

/-- One statement Result: its series. -/
structure Result where
  series : List Series

/-! ### The result formatter (cli.go lines 542-650) -/

/-- Lexicographic comparison of character lists, the order sort.Strings
sorts by (Go compares the UTF-8 bytes; on valid UTF-8 the byte order and the
code-point order coincide). -/
def charListLe : List Char → List Char → Bool
  | [], _ => true
  | _ :: _, [] => false
  | a :: as, b :: bs => if a = b then charListLe as bs else decide (a < b)

/-- Lexicographic string comparison used by sort.Strings. -/
def strLe (a b : String) : Bool := charListLe a.toList b.toList

/-- Embeds the sort.Strings call: sort a list of strings ascending in the
lexicographic order. -/
def sortStrings (l : List String) : List String :=
  l.insertionSort (fun a b => strLe a b)

/-- Embeds the fmt.Sprintf("%s=%s", k, v) composition of one tag. -/
def tagString (kv : String × String) : String := kv.1 ++ "=" ++ kv.2

/-- Embeds the tag-gathering loop of formatResults (cli.go lines 573-577):
append each composed key=value string and re-sort after every append. -/
def gatherTags (ts : List (String × String)) : List String :=
  ts.foldl (fun tags kv => sortStrings (tags ++ [tagString kv])) []

/-- Embeds strings.Repeat("-", n). -/
def dashes (n : Nat) : String := ⟨List.replicate n '-'⟩

/-- Embeds the body of the per-series loop of formatResults (cli.go lines
571-648) for the series at index i. -/
def formatSeries (format : String) (separator : String) (i : Nat) (row : Series) :
    List String :=
  let tags := gatherTags row.tags
  let columnNames :=
    (if format = "csv" ∧ row.name ≠ "" then ["name"] else []) ++
    (if format = "csv" ∧ tags ≠ [] then ["tags"] else []) ++
    row.columns
  (if 0 < i ∧ format = "column" then [""] else []) ++
  (if format = "column" then
    (if row.name ≠ "" then
      ("name: " ++ row.name) ::
        (if tags = [] then [dashes ("name: " ++ row.name).length] else [])
     else []) ++
    (if tags ≠ [] then ["tags: " ++ String.intercalate ", " tags] else [])
   else []) ++
  [String.intercalate separator columnNames] ++
  (if format = "column" ∧ tags ≠ [] then
    [String.intercalate separator (columnNames.map (fun c => dashes c.length))]
   else []) ++
  row.values.map (fun v =>
    String.intercalate separator (
      (if format = "csv" ∧ row.name ≠ "" then [row.name] else []) ++
      (if format = "csv" ∧ tags ≠ [] then [String.intercalate "," tags] else []) ++
      v.map interfaceToString)) ++
  (if format = "column" then [""] else [])

/-- The indexed loop of formatResults over the series of a Result. -/
def formatResultsAux (format separator : String) : Nat → List Series → List String
  | _, [] => []
  | i, s :: rest =>
    formatSeries format separator i s ++ formatResultsAux format separator (i + 1) rest

/-- Embeds formatResults (cli.go lines 568-650). -/
def formatResults (format : String) (result : Result) (separator : String) :
    List String :=
  formatResultsAux format separator 0 result.series

/-- Embeds the per-row work of writeCSV (cli.go lines 542-552): each
formatted row is split on the internal tab separator to recover the CSV
record handed to the csv writer. -/
def splitOnCharL (sep : Char) : List Char → List (List Char)
  | [] => [[]]
  | c :: cs =>
    if c = sep then [] :: splitOnCharL sep cs
    else
      match splitOnCharL sep cs with
      | f :: rest => (c :: f) :: rest
      | [] => [[c]]

/-- Embeds strings.Split(r, tab) at the String level. -/
def splitTab (s : String) : List String := (splitOnCharL '\t' s.toList).map (⟨·⟩)

/-- The CSV records emitted by writeCSV for one Result: formatResults with a
tab separator, each row re-split on tabs. -/
def writeCSVRows (result : Result) : List (List String) :=
  (formatResults "csv" result "\t").map splitTab

/-! ### writeJSON (cli.go lines 527-540)

The JSON marshalling itself is done by the out-of-scope standard library;
it is abstracted as a function argument returning either serialized data or
an error message.  The code passes the four-space string as the indent
argument when Pretty is set. -/

/-- Outcome of a json.Marshal or json.MarshalIndent call. -/
inductive MarshalOutcome where
  | ok (data : String)
  | err (msg : String)

/-- The indent argument the code passes to json.MarshalIndent. -/
def jsonIndent : String := "    "

/-- The output lines produced from a marshal outcome: on error the single
human-readable message and nothing further, otherwise the serialized data. -/
def renderMarshal : MarshalOutcome → List String
  | .err e => ["Unable to parse json: " ++ e]
  | .ok data => [data]

/-- Embeds writeJSON (cli.go lines 527-540): one marshal call, indented with
jsonIndent when pretty is set, then the error or data lines. -/
def writeJSON (pretty : Bool) (marshalIndent : String → String → MarshalOutcome)
    (marshal : MarshalOutcome) : List String :=
  renderMarshal (if pretty then marshalIndent "" jsonIndent else marshal)

/-- Modelled from the spec: JSON mode renders a null scalar as the JSON
literal null (the rendering is performed by encoding/json, which is not
part of src/). -/
def jsonNullRendering : String := "null"

/-! ### The lexicographic order used by sort.Strings -/

theorem charListLe_total : ∀ as bs, charListLe as bs = true ∨ charListLe bs as = true := by
  intro as
  induction as with
  | nil => intro bs; left; simp [charListLe]
  | cons a as ih =>
    intro bs
    cases bs with
    | nil => right; simp [charListLe]
    | cons b bs =>
      by_cases hab : a = b
      · subst hab
        simpa [charListLe] using ih bs
      · rcases lt_or_gt_of_ne hab with h | h
        · left; simp [charListLe, hab, h]
        · right; simp [charListLe, Ne.symm hab, h]

theorem charListLe_trans :
    ∀ as bs cs, charListLe as bs = true → charListLe bs cs = true →
      charListLe as cs = true := by
  intro as
  induction as with
  | nil => intro bs cs _ _; simp [charListLe]
  | cons a as ih =>
    intro bs cs hab hbc
    cases bs with
    | nil => simp [charListLe] at hab
    | cons b bs =>
      cases cs with
      | nil => simp [charListLe] at hbc
      | cons c cs =>
        by_cases h1 : a = b <;> by_cases h2 : b = c
        · subst h1; subst h2
          simp only [charListLe, if_pos rfl] at hab hbc ⊢
          exact ih bs cs hab hbc
        · subst h1
          simp only [charListLe, if_pos rfl, if_neg h2, decide_eq_true_eq] at hab hbc ⊢
          simp [charListLe, h2, hbc]
        · subst h2
          simp only [charListLe, if_neg h1, decide_eq_true_eq] at hab
          simp [charListLe, h1, hab]
        · simp only [charListLe, if_neg h1, if_neg h2, decide_eq_true_eq] at hab hbc
          have hac : a < c := lt_trans hab hbc
          simp [charListLe, ne_of_lt hac, hac]

theorem charListLe_antisymm :
    ∀ as bs, charListLe as bs = true → charListLe bs as = true → as = bs := by
  intro as
  induction as with
  | nil =>
    intro bs _ hba
    cases bs with
    | nil => rfl
    | cons b bs => simp [charListLe] at hba
  | cons a as ih =>
    intro bs hab hba
    cases bs with
    | nil => simp [charListLe] at hab
    | cons b bs =>
      by_cases h1 : a = b
      · subst h1
        simp only [charListLe, if_pos rfl] at hab hba
        rw [ih bs hab hba]
      · simp only [charListLe, if_neg h1, if_neg (Ne.symm h1), decide_eq_true_eq] at hab hba
        exact absurd hba (lt_asymm hab)

instance : IsTotal String (fun a b => strLe a b = true) :=
  ⟨fun a b => charListLe_total a.toList b.toList⟩

instance : IsTrans String (fun a b => strLe a b = true) :=
  ⟨fun a b c => charListLe_trans a.toList b.toList c.toList⟩

instance : IsAntisymm String (fun a b => strLe a b = true) :=
  ⟨fun a b h1 h2 => String.toList_inj.mp (charListLe_antisymm a.toList b.toList h1 h2)⟩

theorem sortStrings_sorted (l : List String) :
    List.Sorted (fun a b => strLe a b = true) (sortStrings l) :=
  List.sorted_insertionSort _ l

theorem sortStrings_perm (l : List String) : List.Perm (sortStrings l) l :=
  List.perm_insertionSort _ l

theorem sortStrings_congr {l l' : List String} (h : List.Perm l l') :
    sortStrings l = sortStrings l' :=
  List.eq_of_perm_of_sorted
    ((sortStrings_perm l).trans (h.trans (sortStrings_perm l').symm))
    (sortStrings_sorted l) (sortStrings_sorted l')

theorem gatherTagsAux (ts : List (String × String)) :
    ∀ acc, ts.foldl (fun tags kv => sortStrings (tags ++ [tagString kv])) (sortStrings acc) =
      sortStrings (acc ++ ts.map tagString) := by
  induction ts with
  | nil => intro acc; simp
  | cons kv ts ih =>
    intro acc
    rw [List.foldl_cons,
      sortStrings_congr ((sortStrings_perm acc).append_right [tagString kv]),
      ih (acc ++ [tagString kv])]
    simp

theorem gatherTags_eq (ts : List (String × String)) :
    gatherTags ts = sortStrings (ts.map tagString) := by
  simpa [gatherTags] using gatherTagsAux ts []

theorem gatherTags_length (ts : List (String × String)) :
    (gatherTags ts).length = ts.length := by
  rw [gatherTags_eq]
  simpa using (sortStrings_perm (ts.map tagString)).length_eq

theorem gatherTags_eq_nil {ts : List (String × String)} :
    gatherTags ts = [] ↔ ts = [] := by
  constructor
  · intro h
    have := gatherTags_length ts
    rw [h] at this
    exact List.length_eq_zero.mp this.symm
  · intro h; subst h; rfl

/-! ### Characterization of the stateful double-quote split

takeEscContent restates the splitting rule of the closure as a scanner: it
returns the characters before the first double quote not neutralized by a
pending backslash flag, together with the characters after that quote, or
none when no such quote exists.  It is the specification-side companion of
dqFieldsCore and is proved to characterize it below. -/

def takeEscContent : List Char → Bool → Option (List Char × List Char)
  | [], _ => none
  | c :: cs, esc =>
    if c = '\\' then (takeEscContent cs true).map (fun p => (c :: p.1, p.2))
    else if c = '"' then
      if esc then (takeEscContent cs false).map (fun p => (c :: p.1, p.2))
      else some ([], cs)
    else (takeEscContent cs esc).map (fun p => (c :: p.1, p.2))

theorem takeEscContent_decomp :
    ∀ cs esc content after, takeEscContent cs esc = some (content, after) →
      cs = content ++ '"' :: after := by
  intro cs
  induction cs with
  | nil => intro esc content after h; simp [takeEscContent] at h
  | cons c cs ih =>
    intro esc content after h
    by_cases h1 : c = '\\'
    · simp only [takeEscContent, if_pos h1, Option.map_eq_some'] at h
      obtain ⟨⟨content', after'⟩, hsome, heq⟩ := h
      obtain ⟨h4, h5⟩ : c :: content' = content ∧ after' = after := by
        simpa using heq
      rw [← h4, ← h5]
      simpa using ih true content' after' hsome
    · by_cases h2 : c = '"'
      · by_cases h3 : esc
        · simp only [takeEscContent, if_neg h1, if_pos h2, if_pos h3,
            Option.map_eq_some'] at h
          obtain ⟨⟨content', after'⟩, hsome, heq⟩ := h
          obtain ⟨h4, h5⟩ : c :: content' = content ∧ after' = after := by
            simpa using heq
          rw [← h4, ← h5]
          simpa using ih false content' after' hsome
        · simp only [takeEscContent, if_neg h1, if_pos h2, if_neg h3] at h
          obtain ⟨h4, h5⟩ : ([] : List Char) = content ∧ cs = after := by
            simpa using h
          rw [← h4, ← h5]
          simp [h2]
      · simp only [takeEscContent, if_neg h1, if_neg h2, Option.map_eq_some'] at h
        obtain ⟨⟨content', after'⟩, hsome, heq⟩ := h
        obtain ⟨h4, h5⟩ : c :: content' = content ∧ after' = after := by
          simpa using heq
        rw [← h4, ← h5]
        simpa using ih esc content' after' hsome

theorem dqFieldsCore_of_some :
    ∀ cs esc cur content after, takeEscContent cs esc = some (content, after) →
      dqFieldsCore cs esc cur =
        if cur.reverse ++ content = [] then dqFieldsCore after false []
        else (cur.reverse ++ content) :: dqFieldsCore after false [] := by
  intro cs
  induction cs with
  | nil => intro esc cur content after h; simp [takeEscContent] at h
  | cons c cs ih =>
    intro esc cur content after h
    by_cases h1 : c = '\\'
    · simp only [takeEscContent, if_pos h1, Option.map_eq_some'] at h
      obtain ⟨⟨content', after'⟩, hsome, heq⟩ := h
      obtain ⟨h4, h5⟩ : c :: content' = content ∧ after' = after := by
        simpa using heq
      rw [← h4, ← h5]
      subst h1
      rw [show dqFieldsCore ('\\' :: cs) esc cur = dqFieldsCore cs true ('\\' :: cur)
        from by simp [dqFieldsCore]]
      rw [ih true ('\\' :: cur) content' after' hsome]
      simp
    · by_cases h2 : c = '"'
      · by_cases h3 : esc
        · simp only [takeEscContent, if_neg h1, if_pos h2, if_pos h3,
            Option.map_eq_some'] at h
          obtain ⟨⟨content', after'⟩, hsome, heq⟩ := h
          obtain ⟨h4, h5⟩ : c :: content' = content ∧ after' = after := by
            simpa using heq
          rw [← h4, ← h5]
          subst h2; subst h3
          rw [show dqFieldsCore ('"' :: cs) true cur = dqFieldsCore cs false ('"' :: cur)
            from by simp [dqFieldsCore]]
          rw [ih false ('"' :: cur) content' after' hsome]
          simp
        · simp only [takeEscContent, if_neg h1, if_pos h2, if_neg h3] at h
          obtain ⟨h4, h5⟩ : ([] : List Char) = content ∧ cs = after := by
            simpa using h
          rw [← h4, ← h5]
          subst h2
          have hesc : esc = false := by simpa using h3
          subst hesc
          by_cases hcur : cur = []
          · subst hcur; simp [dqFieldsCore]
          · rw [show dqFieldsCore ('"' :: cs) false cur =
                cur.reverse :: dqFieldsCore cs false []
              from by simp [dqFieldsCore, hcur]]
            simp [hcur]
      · simp only [takeEscContent, if_neg h1, if_neg h2, Option.map_eq_some'] at h
        obtain ⟨⟨content', after'⟩, hsome, heq⟩ := h
        obtain ⟨h4, h5⟩ : c :: content' = content ∧ after' = after := by
          simpa using heq
        rw [← h4, ← h5]
        rw [show dqFieldsCore (c :: cs) esc cur = dqFieldsCore cs esc (c :: cur)
          from by simp [dqFieldsCore, h1, h2]]
        rw [ih esc (c :: cur) content' after' hsome]
        simp

theorem dqFieldsCore_of_none :
    ∀ cs esc cur, takeEscContent cs esc = none →
      dqFieldsCore cs esc cur =
        if cur.reverse ++ cs = [] then [] else [cur.reverse ++ cs] := by
  intro cs
  induction cs with
  | nil =>
    intro esc cur _
    by_cases hcur : cur = [] <;> simp [dqFieldsCore, hcur]
  | cons c cs ih =>
    intro esc cur h
    by_cases h1 : c = '\\'
    · simp only [takeEscContent, if_pos h1, Option.map_eq_none'] at h
      subst h1
      rw [show dqFieldsCore ('\\' :: cs) esc cur = dqFieldsCore cs true ('\\' :: cur)
        from by simp [dqFieldsCore]]
      rw [ih true ('\\' :: cur) h]
      simp
    · by_cases h2 : c = '"'
      · by_cases h3 : esc
        · simp only [takeEscContent, if_neg h1, if_pos h2, if_pos h3,
            Option.map_eq_none'] at h
          subst h2; subst h3
          rw [show dqFieldsCore ('"' :: cs) true cur = dqFieldsCore cs false ('"' :: cur)
            from by simp [dqFieldsCore]]
          rw [ih false ('"' :: cur) h]
          simp
        · simp [takeEscContent, if_neg h1, if_pos h2, if_neg h3] at h
      · simp only [takeEscContent, if_neg h1, if_neg h2, Option.map_eq_none'] at h
        rw [show dqFieldsCore (c :: cs) esc cur = dqFieldsCore cs esc (c :: cur)
          from by simp [dqFieldsCore, h1, h2]]
        rw [ih esc (c :: cur) h]
        simp

theorem dqFieldsCore_mem_ne_nil :
    ∀ cs esc cur f, f ∈ dqFieldsCore cs esc cur → f ≠ [] := by
  intro cs
  induction cs with
  | nil =>
    intro esc cur f hf
    by_cases hcur : cur = []
    · simp [dqFieldsCore, hcur] at hf
    · simp only [dqFieldsCore, if_neg hcur, List.mem_singleton] at hf
      subst hf
      simpa using hcur
  | cons c cs ih =>
    intro esc cur f hf
    by_cases h1 : c = '\\'
    · rw [show dqFieldsCore (c :: cs) esc cur = dqFieldsCore cs true (c :: cur)
        from by simp [dqFieldsCore, h1]] at hf
      exact ih true (c :: cur) f hf
    · by_cases h2 : c = '"'
      · by_cases h3 : esc
        · rw [show dqFieldsCore (c :: cs) esc cur = dqFieldsCore cs false (c :: cur)
            from by simp [dqFieldsCore, h1, h2, h3]] at hf
          exact ih false (c :: cur) f hf
        · by_cases hcur : cur = []
          · rw [show dqFieldsCore (c :: cs) esc cur = dqFieldsCore cs false []
              from by simp [dqFieldsCore, h1, h2, h3, hcur]] at hf
            exact ih false [] f hf
          · rw [show dqFieldsCore (c :: cs) esc cur =
                cur.reverse :: dqFieldsCore cs false []
              from by simp [dqFieldsCore, h1, h2, h3, hcur]] at hf
            rcases List.mem_cons.mp hf with rfl | hf
            · simpa using hcur
            · exact ih false [] f hf
      · rw [show dqFieldsCore (c :: cs) esc cur = dqFieldsCore cs esc (c :: cur)
          from by simp [dqFieldsCore, h1, h2]] at hf
        exact ih esc (c :: cur) f hf

/-! ### Facts about the pure fields split -/

theorem fieldsFuncCore_mem_ne_nil (p : Char → Bool) :
    ∀ cs cur f, f ∈ fieldsFuncCore p cs cur → f ≠ [] := by
  intro cs
  induction cs with
  | nil =>
    intro cur f hf
    by_cases hcur : cur = []
    · simp [fieldsFuncCore, hcur] at hf
    · simp only [fieldsFuncCore, if_neg hcur, List.mem_singleton] at hf
      subst hf
      simpa using hcur
  | cons c cs ih =>
    intro cur f hf
    by_cases hc : p c
    · by_cases hcur : cur = []
      · rw [show fieldsFuncCore p (c :: cs) cur = fieldsFuncCore p cs []
          from by simp [fieldsFuncCore, hc, hcur]] at hf
        exact ih [] f hf
      · rw [show fieldsFuncCore p (c :: cs) cur = cur.reverse :: fieldsFuncCore p cs []
          from by simp [fieldsFuncCore, hc, hcur]] at hf
        rcases List.mem_cons.mp hf with rfl | hf
        · simpa using hcur
        · exact ih [] f hf
    · rw [show fieldsFuncCore p (c :: cs) cur = fieldsFuncCore p cs (c :: cur)
        from by simp [fieldsFuncCore, hc]] at hf
      exact ih (c :: cur) f hf

theorem fieldsFuncCore_head (p : Char → Bool) :
    ∀ cs cur, cur ≠ [] →
      ∃ f rest, fieldsFuncCore p cs cur = (cur.reverse ++ f) :: rest := by
  intro cs
  induction cs with
  | nil =>
    intro cur hcur
    exact ⟨[], [], by simp [fieldsFuncCore, hcur]⟩
  | cons c cs ih =>
    intro cur hcur
    by_cases hc : p c
    · exact ⟨[], fieldsFuncCore p cs [],
        by simp [fieldsFuncCore, hc, hcur]⟩
    · obtain ⟨f, rest, hf⟩ := ih (c :: cur) (by simp)
      refine ⟨c :: f, rest, ?_⟩
      rw [show fieldsFuncCore p (c :: cs) cur = fieldsFuncCore p cs (c :: cur)
        from by simp [fieldsFuncCore, hc]]
      rw [hf]
      simp

/-! ### Facts about parseNextIdentifier -/

theorem parseNextIdentifierL_ws :
    ∀ w rest, (∀ c ∈ w, isWhitespace c = true) →
      parseNextIdentifierL (w ++ rest) = parseNextIdentifierL rest := by
  intro w
  induction w with
  | nil => intro rest _; rfl
  | cons c w ih =>
    intro rest hw
    have hc : isWhitespace c = true := hw c (by simp)
    rw [show parseNextIdentifierL ((c :: w) ++ rest) = parseNextIdentifierL (w ++ rest)
      from by simp [parseNextIdentifierL, hc]]
    exact ih rest (fun d hd => hw d (by simp [hd]))

theorem parseNextIdentifierL_dropWhile (cs : List Char) :
    parseNextIdentifierL cs = parseNextIdentifierL (cs.dropWhile isWhitespace) := by
  conv_lhs => rw [← List.takeWhile_append_dropWhile (p := isWhitespace) (l := cs)]
  exact parseNextIdentifierL_ws _ _ (fun c hc => List.mem_takeWhile_imp hc)

theorem dropWhile_head_not {p : Char → Bool} :
    ∀ {l : List Char} {c : Char} {t : List Char}, l.dropWhile p = c :: t → p c = false := by
  intro l
  induction l with
  | nil => intro c t h; simp at h
  | cons a l ih =>
    intro c t h
    by_cases ha : p a
    · rw [List.dropWhile_cons_of_pos ha] at h
      exact ih h
    · rw [List.dropWhile_cons_of_neg ha] at h
      cases h
      simpa using ha

theorem isIdentFirstChar_not_isNotIdentChar {c : Char}
    (h : isIdentFirstChar c = true) : isNotIdentChar c = false := by
  unfold isIdentFirstChar at h
  unfold isNotIdentChar
  rcases Bool.or_eq_true _ _ |>.mp h with h1 | h1 <;> simp [h1]

theorem trimPrefixL_length_le (s pre : List Char) :
    (trimPrefixL s pre).length ≤ s.length := by
  unfold trimPrefixL
  split
  · simp [Nat.sub_le]
  · exact le_refl _

theorem trimPrefixL_append (pre t : List Char) :
    trimPrefixL (pre ++ t) pre = t := by
  unfold trimPrefixL
  rw [if_pos (by simp)]
  exact List.drop_left pre t

theorem trimPrefixL_of_longer {s pre : List Char} (h : s.length < pre.length) :
    trimPrefixL s pre = s := by
  unfold trimPrefixL
  rw [if_neg]
  intro hpre
  exact absurd (List.isPrefixOf_iff_prefix.mp hpre).length_le (by omega)

/-- A double-quoted statement with nonempty quoted content: the identifier
is the raw content up to the first unescaped quote and the remainder is the
text after that quote. -/
theorem parseDoubleQuotedIdentifierL_some {cs content after : List Char}
    (h : takeEscContent cs false = some (content, after)) (hne : content ≠ []) :
    parseDoubleQuotedIdentifierL ('"' :: cs) = (content, after) := by
  have hsplit : dqFieldsCore ('"' :: cs) false [] = content :: dqFieldsCore after false [] := by
    rw [show dqFieldsCore ('"' :: cs) false [] = dqFieldsCore cs false []
      from by simp [dqFieldsCore]]
    rw [dqFieldsCore_of_some cs false [] content after h]
    simp [hne]
  have hcs : cs = content ++ '"' :: after := takeEscContent_decomp cs false content after h
  unfold parseDoubleQuotedIdentifierL
  rw [hsplit]
  show (content, trimPrefixL ('"' :: cs) ('"' :: content ++ ['"'])) = (content, after)
  rw [show ('"' :: cs) = ('"' :: content ++ ['"']) ++ after from by simp [hcs],
    trimPrefixL_append]

/-- A double-quoted statement with no closing unescaped quote: the
identifier is everything after the opening quote and the remainder is the
whole statement, opening quote included. -/
theorem parseDoubleQuotedIdentifierL_none {cs : List Char}
    (h : takeEscContent cs false = none) (hne : cs ≠ []) :
    parseDoubleQuotedIdentifierL ('"' :: cs) = (cs, '"' :: cs) := by
  have hsplit : dqFieldsCore ('"' :: cs) false [] = [cs] := by
    rw [show dqFieldsCore ('"' :: cs) false [] = dqFieldsCore cs false []
      from by simp [dqFieldsCore]]
    rw [dqFieldsCore_of_none cs false [] h]
    simp [hne]
  unfold parseDoubleQuotedIdentifierL
  rw [hsplit]
  show (cs, trimPrefixL ('"' :: cs) ('"' :: cs ++ ['"'])) = (cs, '"' :: cs)
  rw [trimPrefixL_of_longer (by simp)]

theorem isWhitespace_quote : isWhitespace '"' = false := by decide

theorem isIdentFirstChar_quote : isIdentFirstChar '"' = false := by decide

/-- parseNextIdentifierL on a statement whose first character is the double
quote dispatches to the double-quote parser. -/
theorem parseNextIdentifierL_quote (cs : List Char) :
    parseNextIdentifierL ('"' :: cs) = parseDoubleQuotedIdentifierL ('"' :: cs) := by
  simp [parseNextIdentifierL, isWhitespace_quote, isIdentFirstChar_quote]

theorem parseUnquotedIdentifierL_len (stmt : List Char) :
    (parseUnquotedIdentifierL stmt).2.length ≤ stmt.length := by
  unfold parseUnquotedIdentifierL
  rcases hf : fieldsFuncCore isNotIdentChar stmt [] with _ | ⟨f, rest⟩
  · exact le_refl _
  · exact trimPrefixL_length_le stmt f

theorem parseDoubleQuotedIdentifierL_len (stmt : List Char) :
    (parseDoubleQuotedIdentifierL stmt).2.length ≤ stmt.length := by
  unfold parseDoubleQuotedIdentifierL
  rcases hf : dqFieldsCore stmt false [] with _ | ⟨f, rest⟩
  · exact le_refl _
  · exact trimPrefixL_length_le stmt ('"' :: f ++ ['"'])

theorem parseNextIdentifierL_len :
    ∀ cs : List Char, (parseNextIdentifierL cs).2.length ≤ cs.length := by
  intro cs
  induction cs with
  | nil => exact le_refl _
  | cons c cs ih =>
    by_cases hws : isWhitespace c
    · rw [show parseNextIdentifierL (c :: cs) = parseNextIdentifierL cs
        from by simp [parseNextIdentifierL, hws]]
      exact le_trans ih (by simp)
    · by_cases hid : isIdentFirstChar c
      · rw [show parseNextIdentifierL (c :: cs) = parseUnquotedIdentifierL (c :: cs)
          from by simp [parseNextIdentifierL, hws, hid]]
        exact parseUnquotedIdentifierL_len (c :: cs)
      · by_cases hq : c = '"'
        · subst hq
          rw [parseNextIdentifierL_quote cs]
          exact parseDoubleQuotedIdentifierL_len ('"' :: cs)
        · rw [show parseNextIdentifierL (c :: cs) = ([], c :: cs)
            from by simp [parseNextIdentifierL, hws, hid, hq]]

theorem parseNextIdentifierL_empty_ident :
    ∀ cs : List Char, (parseNextIdentifierL cs).1 = [] →
      (parseNextIdentifierL cs).2 = cs.dropWhile isWhitespace := by
  intro cs
  induction cs with
  | nil => intro _; rfl
  | cons c cs ih =>
    intro h
    by_cases hws : isWhitespace c
    · rw [show parseNextIdentifierL (c :: cs) = parseNextIdentifierL cs
        from by simp [parseNextIdentifierL, hws]] at h ⊢
      rw [List.dropWhile_cons_of_pos hws]
      exact ih h
    · by_cases hid : isIdentFirstChar c
      · exfalso
        have hp : isNotIdentChar c = false := isIdentFirstChar_not_isNotIdentChar hid
        obtain ⟨f, rest, hf⟩ := fieldsFuncCore_head isNotIdentChar cs [c] (by simp)
        have hfc : fieldsFuncCore isNotIdentChar (c :: cs) [] = (c :: f) :: rest := by
          rw [show fieldsFuncCore isNotIdentChar (c :: cs) [] =
              fieldsFuncCore isNotIdentChar cs [c]
            from by simp [fieldsFuncCore, hp]]
          simpa using hf
        have hpu : (parseUnquotedIdentifierL (c :: cs)).1 = c :: f := by
          unfold parseUnquotedIdentifierL
          rw [hfc]
        rw [show parseNextIdentifierL (c :: cs) = parseUnquotedIdentifierL (c :: cs)
          from by simp [parseNextIdentifierL, hws, hid]] at h
        rw [hpu] at h
        simp at h
      · by_cases hq : c = '"'
        · subst hq
          rw [parseNextIdentifierL_quote cs] at h ⊢
          rcases hsp : dqFieldsCore ('"' :: cs) false [] with _ | ⟨f, rest⟩
          · rw [show parseDoubleQuotedIdentifierL ('"' :: cs) = ([], '"' :: cs)
              from by unfold parseDoubleQuotedIdentifierL; rw [hsp]]
            rw [List.dropWhile_cons_of_neg (by simp [isWhitespace_quote])]
          · exfalso
            rw [show parseDoubleQuotedIdentifierL ('"' :: cs) =
                (f, trimPrefixL ('"' :: cs) ('"' :: f ++ ['"']))
              from by unfold parseDoubleQuotedIdentifierL; rw [hsp]] at h
            exact dqFieldsCore_mem_ne_nil ('"' :: cs) false [] f
              (by rw [hsp]; exact List.mem_cons_self f rest) h
        · rw [show parseNextIdentifierL (c :: cs) = ([], c :: cs)
            from by simp [parseNextIdentifierL, hws, hid, hq]]
          rw [List.dropWhile_cons_of_neg (by simp [hws])]

theorem parseNextIdentifierL_no_ident {cs : List Char} {c : Char} {t : List Char}
    (hdrop : cs.dropWhile isWhitespace = c :: t)
    (hid : isIdentFirstChar c = false) (hq : c ≠ '"') :
    parseNextIdentifierL cs = ([], c :: t) := by
  rw [parseNextIdentifierL_dropWhile, hdrop]
  have hws : isWhitespace c = false := dropWhile_head_not hdrop
  simp [parseNextIdentifierL, hws, hid, hq]

/-! ### Decimal rendering of integers contains no decimal point -/

theorem digitChar_ne_dot (n : Nat) : Nat.digitChar n ≠ '.' := by
  match n with
  | 0 | 1 | 2 | 3 | 4 | 5 | 6 | 7 | 8 | 9 | 10 | 11 | 12 | 13 | 14 | 15 => decide
  | (k + 16) =>
    unfold Nat.digitChar
    repeat rw [if_neg (by omega)]
    decide

theorem toDigitsCore_mem :
    ∀ (fuel n : Nat) (ds : List Char) (c : Char), c ∈ Nat.toDigitsCore 10 fuel n ds →
      c ∈ ds ∨ ∃ k, c = Nat.digitChar k := by
  intro fuel
  induction fuel with
  | zero => intro n ds c h; exact Or.inl h
  | succ fuel ih =>
    intro n ds c h
    rw [show Nat.toDigitsCore 10 (fuel + 1) n ds =
        if n / 10 = 0 then Nat.digitChar (n % 10) :: ds
        else Nat.toDigitsCore 10 fuel (n / 10) (Nat.digitChar (n % 10) :: ds)
      from rfl] at h
    split at h
    · rcases List.mem_cons.mp h with rfl | h
      · exact Or.inr ⟨n % 10, rfl⟩
      · exact Or.inl h
    · rcases ih (n / 10) (Nat.digitChar (n % 10) :: ds) c h with h | h
      · rcases List.mem_cons.mp h with rfl | h
        · exact Or.inr ⟨n % 10, rfl⟩
        · exact Or.inl h
      · exact Or.inr h

theorem natRepr_ne_dot (n : Nat) : ∀ c ∈ (Nat.repr n).toList, c ≠ '.' := by
  intro c hc
  have hr : (Nat.repr n).toList = Nat.toDigitsCore 10 (n + 1) n [] := rfl
  rw [hr] at hc
  rcases toDigitsCore_mem (n + 1) n [] c hc with h | ⟨k, rfl⟩
  · simp at h
  · exact digitChar_ne_dot k

theorem intRepr_ne_dot (i : Int) : ∀ c ∈ (Int.repr i).toList, c ≠ '.' := by
  cases i with
  | ofNat m => exact natRepr_ne_dot m
  | negSucc m =>
    intro c hc
    have hr : (Int.repr (Int.negSucc m)).toList = '-' :: (Nat.repr (m + 1)).toList := rfl
    rw [hr] at hc
    rcases List.mem_cons.mp hc with rfl | hc
    · decide
    · exact natRepr_ne_dot (m + 1) c hc

/-! ### Claim theorems -/

/-- C1 counterexample: on the input consisting of a space, the quoted text
a backslash-quote b, a space and the word rest, the identifier returned
still contains the backslash, so it is not the three-character string the
claim asserts; the full return value is computed alongside. -/
theorem c1_counterexample :
    (parseNextIdentifier " \"a\\\"b\" rest").1 ≠ "a\"b" ∧
    parseNextIdentifier " \"a\\\"b\" rest" = ("a\\\"b", " rest") := by decide

/-- C1 (amended): for a whitespace-prefixed double-quoted input whose
content before the first unescaped quote is nonempty, parseNextIdentifier
returns that raw content (escape backslashes retained, quotes stripped) as
the identifier and the text after the closing quote as the remainder; in
particular on the concrete claim input the identifier keeps the backslash
and the remainder keeps its leading space. -/
theorem c1_quoted_identifier (w cs content after : List Char)
    (hw : ∀ c ∈ w, isWhitespace c = true)
    (h : takeEscContent cs false = some (content, after)) (hne : content ≠ []) :
    parseNextIdentifier ⟨w ++ '"' :: cs⟩ = (⟨content⟩, ⟨after⟩) ∧
    parseNextIdentifier " \"a\\\"b\" rest" = ("a\\\"b", " rest") := by
  constructor
  · have hpl : parseNextIdentifierL (w ++ '"' :: cs) = (content, after) := by
      rw [parseNextIdentifierL_ws w _ hw, parseNextIdentifierL_quote,
        parseDoubleQuotedIdentifierL_some h hne]
    unfold parseNextIdentifier
    rw [show (⟨w ++ '"' :: cs⟩ : String).toList = w ++ '"' :: cs from rfl, hpl]
  · decide

/-- C1 witness: the general theorem applied at the concrete claim input. -/
theorem c1_witness : parseNextIdentifier " \"a\\\"b\" rest" = ("a\\\"b", " rest") :=
  (c1_quoted_identifier [' '] ['a', '\\', '"', 'b', '"', ' ', 'r', 'e', 's', 't']
    ['a', '\\', '"', 'b'] [' ', 'r', 'e', 's', 't']
    (by decide) (by decide) (by decide)).1

/-- C2: the tag list gathered by formatResults is sorted in the
lexicographic string order, is independent of the map iteration order, and
on the tags b=2, a=1 it renders as a=1 then b=2 in either iteration order,
also through the column-mode tags line. -/
theorem c2_tags_sorted :
    (∀ ts : List (String × String),
      List.Sorted (fun a b => strLe a b = true) (gatherTags ts)) ∧
    (∀ ts ts' : List (String × String), List.Perm ts ts' →
      gatherTags ts = gatherTags ts') ∧
    gatherTags [("b", "2"), ("a", "1")] = ["a=1", "b=2"] ∧
    gatherTags [("a", "1"), ("b", "2")] = ["a=1", "b=2"] ∧
    formatResults "column" ⟨[⟨"", [("b", "2"), ("a", "1")], ["c"], []⟩]⟩ "\t" =
      ["tags: a=1, b=2", "c", "-", ""] := by
  refine ⟨?_, ?_, by decide, by decide, by decide⟩
  · intro ts
    rw [gatherTags_eq]
    exact sortStrings_sorted _
  · intro ts ts' h
    rw [gatherTags_eq, gatherTags_eq]
    exact sortStrings_congr (h.map tagString)

/-- C2 witness: the permutation-independence part applied to the two
iteration orders of the tag map of the claim. -/
theorem c2_witness :
    gatherTags [("b", "2"), ("a", "1")] = gatherTags [("a", "1"), ("b", "2")] :=
  c2_tags_sorted.2.1 _ _ (List.Perm.swap _ _ _)

/-- C3: in column mode, with at least one tag the dashed underline row
follows the header row; with a name and no tags the only underline is the
single dash line under the name line, matching its length; with neither
name nor tags the output is just the header, the data rows and the blank
line, with no underline of any kind. -/
theorem c3_column_underline (s : Series) (sep : String) :
    (s.tags ≠ [] →
      formatResults "column" ⟨[s]⟩ sep =
        (if s.name = "" then [] else ["name: " ++ s.name]) ++
        ["tags: " ++ String.intercalate ", " (gatherTags s.tags),
         String.intercalate sep s.columns,
         String.intercalate sep (s.columns.map (fun c => dashes c.length))] ++
        s.values.map (fun v => String.intercalate sep (v.map interfaceToString)) ++
        [""]) ∧
    (s.tags = [] → s.name ≠ "" →
      formatResults "column" ⟨[s]⟩ sep =
        ["name: " ++ s.name, dashes ("name: " ++ s.name).length,
         String.intercalate sep s.columns] ++
        s.values.map (fun v => String.intercalate sep (v.map interfaceToString)) ++
        [""]) ∧
    (s.tags = [] → s.name = "" →
      formatResults "column" ⟨[s]⟩ sep =
        [String.intercalate sep s.columns] ++
        s.values.map (fun v => String.intercalate sep (v.map interfaceToString)) ++
        [""]) := by
  refine ⟨fun ht => ?_, fun ht hn => ?_, fun ht hn => ?_⟩
  · have h1 : gatherTags s.tags ≠ [] := by simpa [gatherTags_eq_nil] using ht
    by_cases hn : s.name = "" <;>
      simp [formatResults, formatResultsAux, formatSeries, h1, hn]
  · have h1 : gatherTags s.tags = [] := by rw [ht]; rfl
    simp [formatResults, formatResultsAux, formatSeries, h1, hn]
  · have h1 : gatherTags s.tags = [] := by rw [ht]; rfl
    simp [formatResults, formatResultsAux, formatSeries, h1, hn]

/-- C3 witness: the three cases instantiated on concrete series. -/
theorem c3_witness :
    formatResults "column" ⟨[⟨"cpu", [("host", "a")], ["time"], [[.int 7]]⟩]⟩ "\t" =
      ["name: cpu", "tags: host=a", "time", "----", "7", ""] ∧
    formatResults "column" ⟨[⟨"cpu", [], ["time"], [[.int 7]]⟩]⟩ "\t" =
      ["name: cpu", "---------", "time", "7", ""] ∧
    formatResults "column" ⟨[⟨"", [], ["time"], [[.int 7]]⟩]⟩ "\t" =
      ["time", "7", ""] := by
  refine ⟨?_, ?_, ?_⟩
  · rw [(c3_column_underline ⟨"cpu", [("host", "a")], ["time"], [[.int 7]]⟩ "\t").1
      (by decide)]
    decide
  · rw [(c3_column_underline ⟨"cpu", [], ["time"], [[.int 7]]⟩ "\t").2.1
      (by decide) (by decide)]
    decide
  · rw [(c3_column_underline ⟨"", [], ["time"], [[.int 7]]⟩ "\t").2.2
      (by decide) (by decide)]
    decide

/-- C4: in CSV mode a series with both a name and tags gets the header
name, tags, then the data columns, and every data row is the series name,
the comma-joined sorted tags, then the converted values; on the cpu
example the emitted CSV records are exactly as the claim states. -/
theorem c4_csv_name_tags (s : Series) (sep : String)
    (hn : s.name ≠ "") (ht : s.tags ≠ []) :
    formatResults "csv" ⟨[s]⟩ sep =
      String.intercalate sep ("name" :: "tags" :: s.columns) ::
        s.values.map (fun v => String.intercalate sep
          (s.name :: String.intercalate "," (gatherTags s.tags) ::
            v.map interfaceToString)) ∧
    writeCSVRows ⟨[⟨"cpu", [("host", "a")], ["time", "value"], [[.int 0, .int 1]]⟩]⟩ =
      [["name", "tags", "time", "value"], ["cpu", "host=a", "0", "1"]] ∧
    (writeCSVRows ⟨[⟨"cpu", [("host", "a")], ["time", "value"],
        [[.int 0, .int 1]]⟩]⟩).map (String.intercalate ",") =
      ["name,tags,time,value", "cpu,host=a,0,1"] := by
  refine ⟨?_, by decide, by decide⟩
  have h1 : gatherTags s.tags ≠ [] := by simpa [gatherTags_eq_nil] using ht
  simp [formatResults, formatResultsAux, formatSeries, h1, hn]

/-- C4 witness: the general theorem applied to the cpu example series. -/
theorem c4_witness :
    formatResults "csv"
        ⟨[⟨"cpu", [("host", "a")], ["time", "value"], [[.int 0, .int 1]]⟩]⟩ "\t" =
      ["name\ttags\ttime\tvalue", "cpu\thost=a\t0\t1"] := by
  rw [(c4_csv_name_tags ⟨"cpu", [("host", "a")], ["time", "value"],
    [[.int 0, .int 1]]⟩ "\t" (by decide) (by decide)).1]
  decide

/-- C5: interfaceToString maps null to the empty string and never to the
word null, booleans to the literal texts true and false, and integers to a
decimal representation that never contains a decimal point, while the
spec-modelled JSON rendering of null is the literal null. -/
theorem c5_scalar_conversion :
    interfaceToString Scalar.null = "" ∧
    interfaceToString Scalar.null ≠ "null" ∧
    interfaceToString Scalar.null ≠ jsonNullRendering ∧
    interfaceToString (Scalar.bool true) = "true" ∧
    interfaceToString (Scalar.bool false) = "false" ∧
    (∀ i : Int, '.' ∉ (interfaceToString (Scalar.int i)).toList) ∧
    jsonNullRendering = "null" := by
  refine ⟨rfl, by decide, by decide, rfl, rfl, ?_, rfl⟩
  intro i hc
  exact intRepr_ne_dot i '.' hc rfl

/-- C5 witness: the integer part applied to a concrete negative integer. -/
theorem c5_witness : '.' ∉ (interfaceToString (Scalar.int (-1024))).toList :=
  c5_scalar_conversion.2.2.2.2.2.1 (-1024)

/-- C6: column-mode output for a nameless, tagless series with columns
time and value and the single row 0, 1 is exactly the header line, the row
line, and one trailing blank line. -/
theorem c6_column_minimal :
    formatResults "column" ⟨[⟨"", [], ["time", "value"], [[.int 0, .int 1]]⟩]⟩ "\t" =
      ["time\tvalue", "0\t1", ""] := by decide

/-- C7: parseInto on a dotted target sets the database to the first
identifier and the retention policy to the second, returning the point
text; on an undotted target followed by a space it sets only the retention
policy, leaving the database at its prior value. -/
theorem c7_insert_into (st : CLIState) :
    parseInto st "mydb.rp value" =
      ({ database := "mydb", retentionPolicy := "rp" }, "value") ∧
    parseInto st "rp value" = ({ st with retentionPolicy := "rp" }, "value") ∧
    (∀ stmt id rest, parseNextIdentifier stmt = (id, rest) →
      startsWith rest " " = true → startsWith rest "." = false →
      parseInto st stmt = ({ st with retentionPolicy := id }, strDrop rest 1)) := by
  refine ⟨?_, ?_, ?_⟩
  · have h1 : parseNextIdentifier "mydb.rp value" = ("mydb", ".rp value") := by decide
    have h2 : parseNextIdentifier (strDrop ".rp value" 1) = ("rp", " value") := by decide
    simp [parseInto, h1, h2, show startsWith ".rp value" "." = true from by decide,
      show startsWith " value" " " = true from by decide,
      show strDrop " value" 1 = "value" from by decide]
  · have h1 : parseNextIdentifier "rp value" = ("rp", " value") := by decide
    simp [parseInto, h1, show startsWith " value" "." = false from by decide,
      show startsWith " value" " " = true from by decide,
      show strDrop " value" 1 = "value" from by decide]
  · intro stmt id rest h hsp hdot
    simp [parseInto, h, hsp, hdot]

/-- C7 witness: both branches at a concrete prior state. -/
theorem c7_witness :
    parseInto ⟨"olddb", "oldrp"⟩ "mydb.rp value" = (⟨"mydb", "rp"⟩, "value") ∧
    parseInto ⟨"olddb", "oldrp"⟩ "rp value" = (⟨"olddb", "rp"⟩, "value") ∧
    parseInto ⟨"olddb", "oldrp"⟩ "rp value2" = (⟨"olddb", "rp"⟩, "value2") := by
  refine ⟨(c7_insert_into ⟨"olddb", "oldrp"⟩).1, (c7_insert_into ⟨"olddb", "oldrp"⟩).2.1, ?_⟩
  have h := (c7_insert_into ⟨"olddb", "oldrp"⟩).2.2 "rp value2" "rp" " value2"
    (by decide) (by decide) (by decide)
  rw [h]
  decide

/-- C8 counterexample: on the input space plus, no identifier is parseable,
the identifier is empty, but the remainder is the whitespace-stripped text,
not the original input as the claim states. -/
theorem c8_counterexample :
    (parseNextIdentifier " +").1 = "" ∧ (parseNextIdentifier " +").2 ≠ " +" := by decide

/-- C8 (amended): parseNextIdentifier is total: the remainder never exceeds
the input in length; whenever the identifier comes back empty the remainder
is the input with leading whitespace removed; and when the first character
after the whitespace can start neither an unquoted nor a quoted identifier
the result is the empty identifier with that whitespace-stripped input as
remainder. -/
theorem c8_totality (s : String) :
    (parseNextIdentifier s).2.length ≤ s.length ∧
    ((parseNextIdentifier s).1 = "" →
      (parseNextIdentifier s).2 = ⟨s.toList.dropWhile isWhitespace⟩) ∧
    (∀ (c : Char) (t : List Char), s.toList.dropWhile isWhitespace = c :: t →
      isIdentFirstChar c = false → c ≠ '"' →
      parseNextIdentifier s = ("", ⟨c :: t⟩)) := by
  refine ⟨?_, ?_, ?_⟩
  · show (parseNextIdentifierL s.toList).2.length ≤ s.toList.length
    exact parseNextIdentifierL_len s.toList
  · intro h
    have h1 : (parseNextIdentifierL s.toList).1 = [] := by
      simpa using congrArg String.toList h
    show (⟨(parseNextIdentifierL s.toList).2⟩ : String) =
      ⟨s.toList.dropWhile isWhitespace⟩
    rw [parseNextIdentifierL_empty_ident s.toList h1]
  · intro c t hdrop hid hq
    have h1 := parseNextIdentifierL_no_ident hdrop hid hq
    show ((⟨(parseNextIdentifierL s.toList).1⟩ : String),
      (⟨(parseNextIdentifierL s.toList).2⟩ : String)) = ("", ⟨c :: t⟩)
    rw [h1]

/-- C8 witness: the no-identifier case applied at the concrete input. -/
theorem c8_witness : parseNextIdentifier " +" = ("", "+") :=
  (c8_totality " +").2.2 '+' [] (by decide) (by decide) (by decide)

/-- C9: writeJSON serializes once, with the four-space indent argument when
pretty is set; a marshal error yields exactly the human-readable message
line and nothing further, and success yields exactly the serialized data. -/
theorem c9_json_mode (mi : String → String → MarshalOutcome) (m : MarshalOutcome) :
    writeJSON true mi m = renderMarshal (mi "" jsonIndent) ∧
    writeJSON false mi m = renderMarshal m ∧
    jsonIndent.length = 4 ∧
    (∀ c ∈ jsonIndent.toList, c = ' ') ∧
    (∀ e, renderMarshal (.err e) = ["Unable to parse json: " ++ e]) ∧
    (∀ d, renderMarshal (.ok d) = [d]) :=
  ⟨rfl, rfl, by decide, by decide, fun _ => rfl, fun _ => rfl⟩

/-- C9 witness: both pretty settings at concrete marshal outcomes. -/
theorem c9_witness :
    writeJSON true (fun _ _ => .err "boom") (.ok "{}") =
      ["Unable to parse json: boom"] ∧
    writeJSON false (fun _ _ => .err "boom") (.ok "{}") = ["{}"] := by
  have h := c9_json_mode (fun _ _ => MarshalOutcome.err "boom") (MarshalOutcome.ok "{}")
  exact ⟨h.1.trans (h.2.2.2.2.1 "boom"), h.2.1.trans (h.2.2.2.2.2 "{}")⟩

/-- C10: for a whitespace-prefixed double-quoted input with no closing
unescaped quote, the identifier is the nonempty text after the opening
quote while the remainder is the whole whitespace-stripped input unchanged,
opening quote included, so identifier and remainder do not partition the
input. -/
theorem c10_unterminated_quote (w cs : List Char)
    (hw : ∀ c ∈ w, isWhitespace c = true) (hne : cs ≠ [])
    (h : takeEscContent cs false = none) :
    parseNextIdentifier ⟨w ++ '"' :: cs⟩ = (⟨cs⟩, ⟨'"' :: cs⟩) ∧
    (⟨cs⟩ : String) ++ (⟨'"' :: cs⟩ : String) ≠ (⟨'"' :: cs⟩ : String) := by
  constructor
  · have hpl : parseNextIdentifierL (w ++ '"' :: cs) = (cs, '"' :: cs) := by
      rw [parseNextIdentifierL_ws w _ hw, parseNextIdentifierL_quote,
        parseDoubleQuotedIdentifierL_none h hne]
    unfold parseNextIdentifier
    rw [show (⟨w ++ '"' :: cs⟩ : String).toList = w ++ '"' :: cs from rfl, hpl]
  · intro hcontra
    have hlist : cs ++ '"' :: cs = '"' :: cs := by
      simpa using congrArg String.toList hcontra
    have hlen := congrArg List.length hlist
    simp at hlen
    exact hne hlen

/-- C10 witness: the theorem applied at the concrete unterminated input. -/
theorem c10_witness : parseNextIdentifier "\"abc" = ("abc", "\"abc") :=
  (c10_unterminated_quote [] ['a', 'b', 'c'] (by decide) (by decide) (by decide)).1

end InfluxCLI
